import Mathlib

/-!
Verification of the crawl frontier and dispatch engine of the
indonesian-media-crawler repository, against its natural-language
specification.

The embedding models the storage layer (`src/detik/data.rs`, `src/data.rs`):
every frontier table (`queued`, `running`, `visited`, `warned`) is a SQLite
table with schema `id TEXT PRIMARY KEY, created_at DATETIME`, so a table is a
list of rows ordered by `created_at`.  `utils::get_now` produces a fresh
timestamp on every call; wall-clock time is modelled by a strictly increasing
counter (`StorageState.clock`), so `ORDER BY created_at` coincides with list
order for rows appended by inserts.  `INSERT OR IGNORE` is an append guarded
by a key-membership test, and `DELETE FROM t WHERE id = ?` is a filter.

The worker (`handle` in `src/lib.rs`) and the startup recovery
(`Storage::merge_queue_and_running`) are translated as pure functions over
this state; the dispatcher/worker concurrency of `run_scrapper` is translated
separately as a small-step transition relation (`EngineStep`) further below.
-/

namespace Crawler

/-- The structured article extracted from a page
(`DetikArticle` in `src/detik/mod.rs`).  `DateTime<FixedOffset>` is stored and
compared as an RFC-3339 string, so the published date is modelled as an
opaque optional string. -/
structure DetikArticle where
  title : Option String
  published_date : Option String
  description : Option String
  thumbnail_url : Option String
  author : Option String
  keywords : List String
  paragraphs : List String
  deriving DecidableEq, Repr

/-- Result of classifying and extracting one fetched page
(`CrawlerResult` in `src/lib.rs`). -/
inductive CrawlerResult where
  | Links (links : List String)
  | DocumentAndLinks (doc : DetikArticle) (links : List String)
  deriving DecidableEq, Repr

/-- One row of a frontier URL table: the `id` column (the URL) and its
`created_at` timestamp. -/
abbrev UrlRow := String × Nat

/-- The `id` column of a table, in stored (`created_at`) order. -/
def tableKeys (l : List UrlRow) : List String := l.map Prod.fst

/-- `UrlTable::insert` (`src/detik/data.rs`):
`INSERT OR IGNORE INTO t (id, created_at) VALUES (url, now)`.
A duplicate key is ignored; a fresh key is appended with the current
timestamp (appending keeps `created_at` order because timestamps are
strictly increasing). -/
def urlInsert (l : List UrlRow) (url : String) (now : Nat) : List UrlRow :=
  if url ∈ tableKeys l then l else l ++ [(url, now)]

/-- `Table::delete` (`src/data.rs`): `DELETE FROM t WHERE id = ?`. -/
def urlDelete (l : List UrlRow) (url : String) : List UrlRow :=
  l.filter (fun r => r.1 != url)

/-- Joining a list of strings with a separator character, the semantics of
Rust's `Vec::join` used by `DetikArticleTable::insert`
(`record.keywords.join("|")`, `record.paragraphs.join("\n")`), defined over
the character lists. -/
def joinChars (sep : Char) : List (List Char) → List Char
  | [] => []
  | [x] => x
  | x :: y :: ys => x ++ sep :: joinChars sep (y :: ys)

/-- Splitting a character list at every occurrence of a separator, the
semantics of Rust's `str::split` on a one-character pattern (in particular
splitting the empty string yields one empty piece). -/
def splitChars (sep : Char) : List Char → List (List Char)
  | [] => [[]]
  | c :: cs =>
    let r := splitChars sep cs
    if c = sep then [] :: r else (c :: r.headD []) :: r.tail

/-- String-level join with a one-character separator (Rust `Vec::join`). -/
def joinWith (sep : Char) (l : List String) : String :=
  String.mk (joinChars sep (l.map String.toList))

/-- String-level split on a one-character separator (Rust `str::split`). -/
def splitWith (sep : Char) (s : String) : List String :=
  (splitChars sep s.toList).map String.mk

/-- One row of the `{name}_results` table
(`DetikArticleTable` in `src/detik/data.rs`): the keyword list is stored
pipe-joined and the paragraph list newline-joined, each in a single TEXT
column. -/
structure ArticleRow where
  title : Option String
  published_date : Option String
  description : Option String
  thumbnail_url : Option String
  author : Option String
  keywords : String
  paragraphs : String
  created_at : Nat
  deriving DecidableEq, Repr

/-- The column values bound by `DetikArticleTable::insert`
(`src/detik/data.rs`, lines 108-117): scalar fields are stored as-is, the
keyword list is joined with a pipe and the paragraph list with a newline. -/
def articleToRow (a : DetikArticle) (now : Nat) : ArticleRow :=
  { title := a.title
    published_date := a.published_date
    description := a.description
    thumbnail_url := a.thumbnail_url
    author := a.author
    keywords := joinWith (Char.ofNat 124) a.keywords
    paragraphs := joinWith (Char.ofNat 10) a.paragraphs
    created_at := now }

/-- The persisted state owned by `DetikData` (`src/detik/data.rs`): the four
frontier tables, the result archive, and the wall clock feeding
`utils::get_now` (strictly increasing, advanced at each `get_now` call). -/
structure StorageState where
  queued : List UrlRow
  running : List UrlRow
  visited : List UrlRow
  warned : List UrlRow
  results : List (String × ArticleRow)
  clock : Nat
  deriving DecidableEq, Repr

/-- `Storage::queued_insert` on `DetikData`. -/
def queued_insert (s : StorageState) (url : String) : StorageState :=
  { s with queued := urlInsert s.queued url s.clock, clock := s.clock + 1 }

/-- `Storage::queued_delete` on `DetikData`. -/
def queued_delete (s : StorageState) (url : String) : StorageState :=
  { s with queued := urlDelete s.queued url }

/-- `Storage::running_insert` on `DetikData`. -/
def running_insert (s : StorageState) (url : String) : StorageState :=
  { s with running := urlInsert s.running url s.clock, clock := s.clock + 1 }

/-- `Storage::running_delete` on `DetikData`. -/
def running_delete (s : StorageState) (url : String) : StorageState :=
  { s with running := urlDelete s.running url }

/-- `Storage::visited_insert` on `DetikData`. -/
def visited_insert (s : StorageState) (url : String) : StorageState :=
  { s with visited := urlInsert s.visited url s.clock, clock := s.clock + 1 }

/-- `Storage::warned_insert` on `DetikData`. -/
def warned_insert (s : StorageState) (url : String) : StorageState :=
  { s with warned := urlInsert s.warned url s.clock, clock := s.clock + 1 }

/-- `Storage::results_insert` on `DetikData` (`DetikArticleTable::insert`):
`INSERT OR IGNORE` keyed by the trimmed URL; the record is stored in its
joined column form. -/
def results_insert (s : StorageState) (url : String) (a : DetikArticle) :
    StorageState :=
  if url.trim ∈ s.results.map Prod.fst then { s with clock := s.clock + 1 }
  else
    { s with results := s.results ++ [(url.trim, articleToRow a s.clock)],
             clock := s.clock + 1 }

/-- `Storage::queued_get`: `SELECT id FROM queued ORDER BY created_at`. -/
def queued_get (s : StorageState) : List String := tableKeys s.queued

/-- `Storage::queued_get_n`:
`SELECT id FROM queued ORDER BY created_at LIMIT n`. -/
def queued_get_n (s : StorageState) (n : Nat) : List String :=
  tableKeys (s.queued.take n)

/-- `Storage::running_get`: `SELECT id FROM running ORDER BY created_at`. -/
def running_get (s : StorageState) : List String := tableKeys s.running

/-- `Storage::running_count`: `SELECT COUNT(*) FROM running`. -/
def running_count (s : StorageState) : Nat := s.running.length

/-- `Storage::queued_is_exists`. -/
def queued_is_exists (s : StorageState) (url : String) : Prop :=
  url ∈ tableKeys s.queued

/-- `Storage::running_is_exists`. -/
def running_is_exists (s : StorageState) (url : String) : Prop :=
  url ∈ tableKeys s.running

/-- `Storage::visited_is_exists`. -/
def visited_is_exists (s : StorageState) (url : String) : Prop :=
  url ∈ tableKeys s.visited

/-- Membership in the warned table (the warned table has no `is_exists`
caller in the engine; this is plain table membership). -/
def warned_is_exists (s : StorageState) (url : String) : Prop :=
  url ∈ tableKeys s.warned

instance (s : StorageState) (url : String) : Decidable (queued_is_exists s url) := by
  unfold queued_is_exists; infer_instance

instance (s : StorageState) (url : String) : Decidable (running_is_exists s url) := by
  unfold running_is_exists; infer_instance

instance (s : StorageState) (url : String) : Decidable (visited_is_exists s url) := by
  unfold visited_is_exists; infer_instance

instance (s : StorageState) (url : String) : Decidable (warned_is_exists s url) := by
  unfold warned_is_exists; infer_instance

/-- `Storage::merge_queue_and_running` (`src/lib.rs`, lines 71-78): snapshot
the running table, then for each of its URLs in stored order insert it into
`queued` and delete it from `running`. -/
def merge_queue_and_running (s : StorageState) : StorageState :=
  (running_get s).foldl (fun st u => running_delete (queued_insert st u) u) s

/-- The link-discovery check of `handle` (`src/lib.rs`, lines 201-209 and
227-235): a discovered link is enqueued only if it is in none of
`visited`, `running`, `queued`. -/
def enqueue_link (s : StorageState) (link : String) : StorageState :=
  if link ∈ tableKeys s.visited then s
  else if link ∈ tableKeys s.running then s
  else if link ∈ tableKeys s.queued then s
  else queued_insert s link

/-- Enqueueing every discovered link in order (the `for link in links` loops
of `handle`). -/
def enqueue_links (s : StorageState) (links : List String) : StorageState :=
  links.foldl enqueue_link s

/-- The `match result` branch of `handle` (`src/lib.rs`, lines 197-238):
link-only pages are marked visited and their links enqueued; extractable
pages with no paragraphs are marked warned (not visited, nothing stored, no
links enqueued); extractable pages with paragraphs get an article record,
a visited mark and their links enqueued. -/
def handleBody (url : String) (res : CrawlerResult) (s : StorageState) :
    StorageState :=
  match res with
  | .Links links => enqueue_links (visited_insert s url) links
  | .DocumentAndLinks doc links =>
    if doc.paragraphs.isEmpty then warned_insert s url
    else enqueue_links (visited_insert (results_insert s url doc) url) links

/-- The worker `handle` (`src/lib.rs`, lines 160-242) on the successful-fetch
path, as a storage-state transformer: insert into `running`, delete from
`queued`, process the crawl result, and finally delete from `running`.
The crawl result of the fetched page is the parameter `res`. -/
def handle (url : String) (res : CrawlerResult) (s : StorageState) :
    StorageState :=
  running_delete (handleBody url res (queued_delete (running_insert s url) url)) url

/-- The storage state at the moment `reqwest::get(url).await.unwrap()`
(`src/lib.rs`, line 186) panics on a transport error: `running_insert` and
`queued_delete` have already executed and nothing afterwards runs, so the
worker task dies here. -/
def handleAtFetchFailure (url : String) (s : StorageState) : StorageState :=
  queued_delete (running_insert s url) url

/-! Basic lemmas about the table operations. -/

theorem tableKeys_urlInsert (l : List UrlRow) (u : String) (t : Nat) :
    tableKeys (urlInsert l u t) =
      if u ∈ tableKeys l then tableKeys l else tableKeys l ++ [u] := by
  unfold urlInsert tableKeys
  by_cases h : u ∈ l.map Prod.fst <;> simp [h]

theorem mem_tableKeys_urlInsert_self (l : List UrlRow) (u : String) (t : Nat) :
    u ∈ tableKeys (urlInsert l u t) := by
  rw [tableKeys_urlInsert]
  by_cases h : u ∈ tableKeys l <;> simp [h]

theorem mem_tableKeys_urlInsert_iff (l : List UrlRow) (u v : String) (t : Nat) :
    v ∈ tableKeys (urlInsert l u t) ↔ v ∈ tableKeys l ∨ v = u := by
  rw [tableKeys_urlInsert]
  by_cases h : u ∈ tableKeys l
  · simp only [h, if_true]
    constructor
    · exact fun hv => Or.inl hv
    · rintro (hv | rfl) <;> [exact hv; exact h]
  · simp [h]

theorem tableKeys_urlDelete (l : List UrlRow) (u : String) :
    tableKeys (urlDelete l u) = (tableKeys l).filter (fun v => v != u) := by
  unfold urlDelete tableKeys
  induction l with
  | nil => rfl
  | cons r rest ih =>
    by_cases h : r.1 = u <;> simp [List.filter_cons, h, ih]

theorem mem_tableKeys_urlDelete_iff (l : List UrlRow) (u v : String) :
    v ∈ tableKeys (urlDelete l u) ↔ v ∈ tableKeys l ∧ v ≠ u := by
  rw [tableKeys_urlDelete]
  simp [List.mem_filter]

theorem not_mem_tableKeys_urlDelete (l : List UrlRow) (u : String) :
    u ∉ tableKeys (urlDelete l u) := by
  rw [mem_tableKeys_urlDelete_iff]
  simp

theorem urlDelete_urlInsert_self (l : List UrlRow) (u : String) (t : Nat) :
    urlDelete (urlInsert l u t) u = urlDelete l u := by
  unfold urlInsert
  by_cases h : u ∈ tableKeys l
  · simp [h]
  · simp only [h, if_false, urlDelete, List.filter_append]
    simp

theorem tableKeys_urlInsert_nodup (l : List UrlRow) (u : String) (t : Nat)
    (h : (tableKeys l).Nodup) : (tableKeys (urlInsert l u t)).Nodup := by
  rw [tableKeys_urlInsert]
  by_cases hm : u ∈ tableKeys l
  · simpa [hm] using h
  · simp only [hm, if_false]
    simp [List.nodup_append, h, hm]

theorem tableKeys_urlDelete_nodup (l : List UrlRow) (u : String)
    (h : (tableKeys l).Nodup) : (tableKeys (urlDelete l u)).Nodup := by
  rw [tableKeys_urlDelete]
  exact List.Nodup.sublist (List.filter_sublist _) h

/-! Frame lemmas: which fields each operation can touch. -/

theorem enqueue_link_running (s : StorageState) (l : String) :
    (enqueue_link s l).running = s.running := by
  unfold enqueue_link queued_insert
  split <;> [rfl; skip]
  split <;> [rfl; skip]
  split <;> rfl

theorem enqueue_link_visited (s : StorageState) (l : String) :
    (enqueue_link s l).visited = s.visited := by
  unfold enqueue_link queued_insert
  split <;> [rfl; skip]
  split <;> [rfl; skip]
  split <;> rfl

theorem enqueue_link_warned (s : StorageState) (l : String) :
    (enqueue_link s l).warned = s.warned := by
  unfold enqueue_link queued_insert
  split <;> [rfl; skip]
  split <;> [rfl; skip]
  split <;> rfl

theorem enqueue_link_results (s : StorageState) (l : String) :
    (enqueue_link s l).results = s.results := by
  unfold enqueue_link queued_insert
  split <;> [rfl; skip]
  split <;> [rfl; skip]
  split <;> rfl

theorem enqueue_links_running (s : StorageState) (links : List String) :
    (enqueue_links s links).running = s.running := by
  induction links generalizing s with
  | nil => rfl
  | cons l rest ih => rw [enqueue_links, List.foldl_cons, ← enqueue_links, ih,
      enqueue_link_running]

theorem enqueue_links_visited (s : StorageState) (links : List String) :
    (enqueue_links s links).visited = s.visited := by
  induction links generalizing s with
  | nil => rfl
  | cons l rest ih => rw [enqueue_links, List.foldl_cons, ← enqueue_links, ih,
      enqueue_link_visited]

theorem enqueue_links_warned (s : StorageState) (links : List String) :
    (enqueue_links s links).warned = s.warned := by
  induction links generalizing s with
  | nil => rfl
  | cons l rest ih => rw [enqueue_links, List.foldl_cons, ← enqueue_links, ih,
      enqueue_link_warned]

theorem enqueue_links_results (s : StorageState) (links : List String) :
    (enqueue_links s links).results = s.results := by
  induction links generalizing s with
  | nil => rfl
  | cons l rest ih => rw [enqueue_links, List.foldl_cons, ← enqueue_links, ih,
      enqueue_link_results]

/-- A URL already marked visited is never (re-)enqueued by link discovery:
the `visited_is_exists` arm of the check fires first. -/
theorem enqueue_links_not_queued (s : StorageState) (links : List String)
    (u : String) (hv : u ∈ tableKeys s.visited) (hq : u ∉ tableKeys s.queued) :
    u ∉ tableKeys (enqueue_links s links).queued := by
  induction links generalizing s with
  | nil => exact hq
  | cons l rest ih =>
    rw [enqueue_links, List.foldl_cons, ← enqueue_links]
    refine ih (enqueue_link s l) ?_ ?_
    · rw [enqueue_link_visited]; exact hv
    · unfold enqueue_link
      split
      · exact hq
      · split
        · exact hq
        · split
          · exact hq
          · rename_i hlv _ _
            unfold queued_insert
            intro hmem
            rcases (mem_tableKeys_urlInsert_iff s.queued l u s.clock).mp hmem with h | rfl
            · exact hq h
            · exact hlv hv

theorem enqueue_links_queued_nodup (s : StorageState) (links : List String)
    (h : (tableKeys s.queued).Nodup) :
    (tableKeys (enqueue_links s links).queued).Nodup := by
  induction links generalizing s with
  | nil => exact h
  | cons l rest ih =>
    rw [enqueue_links, List.foldl_cons, ← enqueue_links]
    refine ih (enqueue_link s l) ?_
    unfold enqueue_link
    split
    · exact h
    · split
      · exact h
      · split
        · exact h
        · exact tableKeys_urlInsert_nodup _ _ _ h

theorem results_insert_queued (s : StorageState) (u : String) (a : DetikArticle) :
    (results_insert s u a).queued = s.queued := by
  unfold results_insert; split <;> rfl

theorem results_insert_running (s : StorageState) (u : String) (a : DetikArticle) :
    (results_insert s u a).running = s.running := by
  unfold results_insert; split <;> rfl

theorem results_insert_visited (s : StorageState) (u : String) (a : DetikArticle) :
    (results_insert s u a).visited = s.visited := by
  unfold results_insert; split <;> rfl

theorem results_insert_warned (s : StorageState) (u : String) (a : DetikArticle) :
    (results_insert s u a).warned = s.warned := by
  unfold results_insert; split <;> rfl

/-- Claim C4: for every fetched page classified as extractable whose
extraction produces zero paragraphs, the worker inserts the URL into Warned,
does not insert it into Visited (the visited table is unchanged), writes no
Article Record (the results table is unchanged), and removes the URL from
Running at the end of processing. -/
theorem empty_extraction_routes_to_warned (s : StorageState) (url : String)
    (doc : DetikArticle) (links : List String) (hp : doc.paragraphs = []) :
    warned_is_exists (handle url (.DocumentAndLinks doc links) s) url ∧
    (handle url (.DocumentAndLinks doc links) s).visited = s.visited ∧
    (handle url (.DocumentAndLinks doc links) s).results = s.results ∧
    ¬ running_is_exists (handle url (.DocumentAndLinks doc links) s) url := by
  unfold handle handleBody
  simp only [hp, List.isEmpty_nil, if_true]
  refine ⟨?_, rfl, rfl, ?_⟩
  · unfold warned_is_exists running_delete warned_insert
    exact mem_tableKeys_urlInsert_self _ _ _
  · unfold running_is_exists running_delete
    exact not_mem_tableKeys_urlDelete _ _

/-- Claim C10: on the empty-extraction path the worker's state changes are
exactly: the URL is deleted from Queued and from Running and inserted into
Warned (with the timestamp of the one intermediate clock tick); the visited
table and the result archive are unchanged, and no discovered link is
enqueued.  Stated as a full record equality, so any other effect is
excluded. -/
theorem empty_extraction_frame (s : StorageState) (url : String)
    (doc : DetikArticle) (links : List String) (hp : doc.paragraphs = []) :
    handle url (.DocumentAndLinks doc links) s =
      { queued := urlDelete s.queued url
        running := urlDelete s.running url
        visited := s.visited
        warned := urlInsert s.warned url (s.clock + 1)
        results := s.results
        clock := s.clock + 2 } := by
  unfold handle handleBody
  simp only [hp, List.isEmpty_nil, if_true]
  unfold running_delete warned_insert queued_delete running_insert
  simp [urlDelete_urlInsert_self]

/-- Claim C1 (amended): for every URL whose worker runs to completion with no
concurrent interference and all storage calls succeeding, provided the URL is
in neither Visited nor Warned when the worker starts, at the end of `handle`
the URL is a member of exactly one of {Visited, Warned} and of neither Queued
nor Running.  (Without the proviso the property fails: a previously warned
URL that is rediscovered and later yields a document ends up in both Visited
and Warned, see the counterexample.) -/
theorem handle_visited_warned_disjoint (s : StorageState) (url : String)
    (res : CrawlerResult)
    (hv : ¬ visited_is_exists s url) (hw : ¬ warned_is_exists s url) :
    ((visited_is_exists (handle url res s) url ∧
        ¬ warned_is_exists (handle url res s) url) ∨
      (¬ visited_is_exists (handle url res s) url ∧
        warned_is_exists (handle url res s) url)) ∧
    ¬ queued_is_exists (handle url res s) url ∧
    ¬ running_is_exists (handle url res s) url := by
  simp only [visited_is_exists, warned_is_exists, queued_is_exists,
    running_is_exists] at hv hw ⊢
  cases res with
  | Links links =>
    unfold handle handleBody
    refine ⟨Or.inl ⟨?_, ?_⟩, ?_, ?_⟩
    · simp only [running_delete, enqueue_links_visited, visited_insert]
      exact mem_tableKeys_urlInsert_self _ _ _
    · simp only [running_delete, enqueue_links_warned, visited_insert,
        queued_delete, running_insert]
      exact hw
    · simp only [running_delete]
      refine enqueue_links_not_queued _ links url ?_ ?_
      · simp only [visited_insert]
        exact mem_tableKeys_urlInsert_self _ _ _
      · simp only [visited_insert, queued_delete, running_insert]
        exact not_mem_tableKeys_urlDelete _ _
    · simp only [running_delete]
      exact not_mem_tableKeys_urlDelete _ _
  | DocumentAndLinks doc links =>
    unfold handle handleBody
    cases hE : doc.paragraphs.isEmpty with
    | true =>
      simp only [hE, if_true]
      refine ⟨Or.inr ⟨?_, ?_⟩, ?_, ?_⟩
      · simp only [running_delete, warned_insert, queued_delete, running_insert]
        exact hv
      · simp only [running_delete, warned_insert]
        exact mem_tableKeys_urlInsert_self _ _ _
      · simp only [running_delete, warned_insert, queued_delete, running_insert]
        exact not_mem_tableKeys_urlDelete _ _
      · simp only [running_delete]
        exact not_mem_tableKeys_urlDelete _ _
    | false =>
      simp only [hE, Bool.false_eq_true, if_false]
      refine ⟨Or.inl ⟨?_, ?_⟩, ?_, ?_⟩
      · simp only [running_delete, enqueue_links_visited, visited_insert]
        exact mem_tableKeys_urlInsert_self _ _ _
      · simp only [running_delete, enqueue_links_warned, visited_insert,
          results_insert_warned, queued_delete, running_insert]
        exact hw
      · simp only [running_delete]
        refine enqueue_links_not_queued _ links url ?_ ?_
        · simp only [visited_insert]
          exact mem_tableKeys_urlInsert_self _ _ _
        · simp only [visited_insert, results_insert_queued, queued_delete,
            running_insert]
          exact not_mem_tableKeys_urlDelete _ _
      · simp only [running_delete]
        exact not_mem_tableKeys_urlDelete _ _

/-- A store in which the URL u has been warned by an earlier cycle and has
been rediscovered and re-queued (rule 1 of the frontier state machine checks
only Visited, Running and Queued, so a warned URL can re-enter the queue). -/
def warnedRequeuedStore : StorageState :=
  { queued := [("u", 2)]
    running := []
    visited := []
    warned := [("u", 1)]
    results := []
    clock := 3 }

/-- A crawl result whose extraction produced one paragraph. -/
def docWithParagraph : DetikArticle :=
  { title := none, published_date := none, description := none,
    thumbnail_url := none, author := none, keywords := [],
    paragraphs := ["p"] }

/-- Claim C1 (counterexample): a worker run on a URL that an earlier cycle
left in Warned and that now yields a non-empty document ends with the URL in
both Visited and Warned, so the URL is not a member of exactly one of
{Visited, Warned}.  The run itself is interference-free: the claim as stated
is false because it has no proviso on the Warned set. -/
theorem handle_visited_warned_not_exclusive :
    ¬ ((visited_is_exists
          (handle ("u")
            (.DocumentAndLinks docWithParagraph []) warnedRequeuedStore)
          ("u") ∧
        ¬ warned_is_exists
          (handle ("u")
            (.DocumentAndLinks docWithParagraph []) warnedRequeuedStore)
          ("u")) ∨
      (¬ visited_is_exists
          (handle ("u")
            (.DocumentAndLinks docWithParagraph []) warnedRequeuedStore)
          ("u") ∧
        warned_is_exists
          (handle ("u")
            (.DocumentAndLinks docWithParagraph []) warnedRequeuedStore)
          ("u"))) := by
  decide

/-- A fresh store: all tables empty. -/
def emptyStore : StorageState :=
  { queued := [], running := [], visited := [], warned := [], results := [],
    clock := 0 }

/-- A store whose queue holds the single seed URL u. -/
def seedQueuedStore : StorageState :=
  { queued := [("u", 0)], running := [], visited := [], warned := [],
    results := [], clock := 1 }

/-- A store at startup with two URLs orphaned in Running and one queued. -/
def mergeDemoStore : StorageState :=
  { queued := [("z", 0)], running := [("x", 1), ("y", 2)], visited := [],
    warned := [], results := [], clock := 3 }

/-- A document whose extraction produced no paragraphs. -/
def docNoParagraphs : DetikArticle :=
  { title := none, published_date := none, description := none,
    thumbnail_url := none, author := none, keywords := [], paragraphs := [] }

theorem handle_visited_warned_disjoint_witness :
    (¬ visited_is_exists emptyStore "u" ∧ ¬ warned_is_exists emptyStore "u") ∧
    (((visited_is_exists (handle "u" (.Links []) emptyStore) "u" ∧
        ¬ warned_is_exists (handle "u" (.Links []) emptyStore) "u") ∨
      (¬ visited_is_exists (handle "u" (.Links []) emptyStore) "u" ∧
        warned_is_exists (handle "u" (.Links []) emptyStore) "u")) ∧
    ¬ queued_is_exists (handle "u" (.Links []) emptyStore) "u" ∧
    ¬ running_is_exists (handle "u" (.Links []) emptyStore) "u") :=
  ⟨⟨by decide, by decide⟩,
    handle_visited_warned_disjoint emptyStore "u" (.Links []) (by decide)
      (by decide)⟩

theorem empty_extraction_routes_to_warned_witness :
    docNoParagraphs.paragraphs = [] ∧
    (warned_is_exists
        (handle "u" (.DocumentAndLinks docNoParagraphs ["l"]) emptyStore) "u" ∧
      (handle "u" (.DocumentAndLinks docNoParagraphs ["l"]) emptyStore).visited =
        emptyStore.visited ∧
      (handle "u" (.DocumentAndLinks docNoParagraphs ["l"]) emptyStore).results =
        emptyStore.results ∧
      ¬ running_is_exists
        (handle "u" (.DocumentAndLinks docNoParagraphs ["l"]) emptyStore) "u") :=
  ⟨rfl, empty_extraction_routes_to_warned emptyStore "u" docNoParagraphs ["l"] rfl⟩

theorem empty_extraction_frame_witness :
    docNoParagraphs.paragraphs = [] ∧
    handle "u" (.DocumentAndLinks docNoParagraphs ["l"]) emptyStore =
      { queued := urlDelete emptyStore.queued "u"
        running := urlDelete emptyStore.running "u"
        visited := emptyStore.visited
        warned := urlInsert emptyStore.warned "u" (emptyStore.clock + 1)
        results := emptyStore.results
        clock := emptyStore.clock + 2 } :=
  ⟨rfl, empty_extraction_frame emptyStore "u" docNoParagraphs ["l"] rfl⟩

/-- Claim C3's failing input evaluated: when the fetch of the seed URL u
fails with a transport error, the worker dies at the `unwrap` with the URL
still in Running and already deleted from Queued — it is not returned to
Queued as the specification requires. -/
theorem transport_failure_leaves_url_in_running :
    running_is_exists (handleAtFetchFailure "u" seedQueuedStore) "u" ∧
    ¬ queued_is_exists (handleAtFetchFailure "u" seedQueuedStore) "u" := by
  decide

/-- Claim C2: starting from `Running = [x, y]` (in stored order) and
`Queued = [z]`, one call to `merge_queue_and_running` inserts every URL of
Running into Queued (with fresh enqueue timestamps, hence ordered after z)
and deletes it from Running: afterwards the queue lists `[z, x, y]` and
Running is empty. -/
theorem merge_queue_and_running_recovery (s : StorageState) (x y z : String)
    (tx ty tz : Nat)
    (hr : s.running = [(x, tx), (y, ty)]) (hq : s.queued = [(z, tz)])
    (hxy : x ≠ y) (hxz : x ≠ z) (hyz : y ≠ z) :
    queued_get (merge_queue_and_running s) = [z, x, y] ∧
    (merge_queue_and_running s).running = [] := by
  unfold merge_queue_and_running running_get queued_get
  rw [hr]
  unfold tableKeys
  simp only [List.map_cons, List.map_nil, List.foldl_cons, List.foldl_nil]
  unfold running_delete queued_insert urlInsert urlDelete tableKeys
  simp [hr, hq, hxy, hxz, hyz, Ne.symm hxy, List.filter_cons]

theorem merge_queue_and_running_recovery_witness :
    (mergeDemoStore.running = [("x", 1), ("y", 2)] ∧
      mergeDemoStore.queued = [("z", 0)]) ∧
    (queued_get (merge_queue_and_running mergeDemoStore) = ["z", "x", "y"] ∧
      (merge_queue_and_running mergeDemoStore).running = []) :=
  ⟨⟨rfl, rfl⟩,
    merge_queue_and_running_recovery mergeDemoStore "x" "y" "z" 1 2 0 rfl rfl
      (by decide) (by decide) (by decide)⟩

/-- Claim C6: after inserting three distinct URLs a, b, c in that order into
an empty queue, `queued_get_n 2` returns `[a, b]`; after deleting b and
re-inserting it, the queue listing becomes `[a, c, b]` — the listing is
ordered by enqueue timestamp ascending and re-insertion assigns a fresh
timestamp. -/
theorem fifo_ordering (s : StorageState) (a b c : String)
    (h0 : s.queued = []) (hab : a ≠ b) (hac : a ≠ c) (hbc : b ≠ c) :
    queued_get_n (queued_insert (queued_insert (queued_insert s a) b) c) 2 =
      [a, b] ∧
    queued_get
        (queued_insert
          (queued_delete
            (queued_insert (queued_insert (queued_insert s a) b) c) b) b) =
      [a, c, b] := by
  unfold queued_get_n queued_get queued_insert queued_delete urlInsert urlDelete
    tableKeys
  simp [h0, hab, hac, hbc, Ne.symm hab, Ne.symm hac, Ne.symm hbc,
    List.filter_cons]

theorem fifo_ordering_witness :
    (emptyStore.queued = [] ∧ ("a" : String) ≠ "b" ∧ ("a" : String) ≠ "c" ∧
      ("b" : String) ≠ "c") ∧
    (queued_get_n
        (queued_insert (queued_insert (queued_insert emptyStore "a") "b") "c")
        2 = ["a", "b"] ∧
      queued_get
        (queued_insert
          (queued_delete
            (queued_insert (queued_insert (queued_insert emptyStore "a") "b")
              "c") "b") "b") = ["a", "c", "b"]) :=
  ⟨⟨rfl, by decide, by decide, by decide⟩,
    fifo_ordering emptyStore "a" "b" "c" rfl (by decide) (by decide) (by decide)⟩

theorem results_insert_results_of_mem (s : StorageState) (url : String)
    (a : DetikArticle) (h : url.trim ∈ s.results.map Prod.fst) :
    (results_insert s url a).results = s.results := by
  unfold results_insert
  rw [if_pos h]

theorem mem_results_insert (s : StorageState) (url : String) (a : DetikArticle) :
    url.trim ∈ (results_insert s url a).results.map Prod.fst := by
  unfold results_insert
  split
  · assumption
  · simp

/-- Reading the stored row for a URL out of the result archive
(`SELECT ... WHERE id = ?` against the trimmed key under which
`DetikArticleTable::insert` stores records). -/
def resultsLookup (s : StorageState) (url : String) : Option ArticleRow :=
  (s.results.find? (fun p => p.1 == url.trim)).map Prod.snd

/-- Claim C7: inserts are insert-or-ignore everywhere.  For a frontier table
with distinct keys: an insert of an already present key is a no-op, and
inserting the same URL twice leaves the count of that key at 1 (every
frontier set — queued, running, visited, warned — stores through
`urlInsert`).  For the result archive: a second insert under an
already-present URL leaves the table, and hence the first article's stored
fields, unchanged (first writer wins). -/
theorem insert_or_ignore_idempotent (l : List UrlRow) (s : StorageState)
    (u : String) (t1 t2 : Nat) (r1 r2 : DetikArticle)
    (hnd : (tableKeys l).Nodup) :
    (u ∈ tableKeys l → urlInsert l u t1 = l) ∧
    (tableKeys (urlInsert (urlInsert l u t1) u t2)).count u = 1 ∧
    (results_insert (results_insert s u r1) u r2).results =
      (results_insert s u r1).results ∧
    resultsLookup (results_insert (results_insert s u r1) u r2) u =
      resultsLookup (results_insert s u r1) u := by
  refine ⟨?_, ?_, ?_, ?_⟩
  · intro hmem
    unfold urlInsert
    rw [if_pos hmem]
  · by_cases hmem : u ∈ tableKeys l
    · have h1 : urlInsert l u t1 = l := by unfold urlInsert; rw [if_pos hmem]
      have h2 : urlInsert l u t2 = l := by unfold urlInsert; rw [if_pos hmem]
      rw [h1, h2]
      exact List.count_eq_one_of_mem hnd hmem
    · have h1 : urlInsert l u t1 = l ++ [(u, t1)] := by
        unfold urlInsert; rw [if_neg hmem]
      have hmem1 : u ∈ tableKeys (l ++ [(u, t1)]) := by
        unfold tableKeys; simp
      have h2 : urlInsert (l ++ [(u, t1)]) u t2 = l ++ [(u, t1)] := by
        unfold urlInsert; rw [if_pos hmem1]
      rw [h1, h2]
      unfold tableKeys
      simp [List.count_append]
      exact List.count_eq_zero_of_not_mem hmem
  · exact results_insert_results_of_mem _ _ _ (mem_results_insert s u r1)
  · unfold resultsLookup
    rw [results_insert_results_of_mem _ _ _ (mem_results_insert s u r1)]

theorem insert_or_ignore_idempotent_witness :
    (tableKeys [(("v" : String), (0 : Nat))]).Nodup ∧
    ((("u" : String) ∈ tableKeys [(("v" : String), (0 : Nat))] →
        urlInsert [(("v" : String), (0 : Nat))] "u" 1 =
          [(("v" : String), (0 : Nat))]) ∧
      (tableKeys
          (urlInsert (urlInsert [(("v" : String), (0 : Nat))] "u" 1) "u"
            2)).count "u" = 1 ∧
      (results_insert (results_insert emptyStore "u" docNoParagraphs) "u"
          docWithParagraph).results =
        (results_insert emptyStore "u" docNoParagraphs).results ∧
      resultsLookup
          (results_insert (results_insert emptyStore "u" docNoParagraphs) "u"
            docWithParagraph) "u" =
        resultsLookup (results_insert emptyStore "u" docNoParagraphs) "u") :=
  ⟨by decide,
    insert_or_ignore_idempotent [("v", 0)] emptyStore "u" 1 2 docNoParagraphs
      docWithParagraph (by decide)⟩

/-! Round-trip of the joined storage columns (claim C8). -/

theorem splitChars_of_not_mem (sep : Char) (x : List Char) (h : sep ∉ x) :
    splitChars sep x = [x] := by
  induction x with
  | nil => rfl
  | cons c cs ih =>
    have hc : c ≠ sep := fun hc => h (hc ▸ List.mem_cons_self c cs)
    have hcs : sep ∉ cs := fun hm => h (List.mem_cons_of_mem c hm)
    simp [splitChars, ih hcs, hc]

theorem splitChars_append_sep (sep : Char) (x rest : List Char) (h : sep ∉ x) :
    splitChars sep (x ++ sep :: rest) = x :: splitChars sep rest := by
  induction x with
  | nil => simp [splitChars]
  | cons c cs ih =>
    have hc : c ≠ sep := fun hc => h (hc ▸ List.mem_cons_self c cs)
    have hcs : sep ∉ cs := fun hm => h (List.mem_cons_of_mem c hm)
    simp only [List.cons_append, splitChars, List.append_eq]
    rw [ih hcs, if_neg hc]
    simp

theorem splitChars_joinChars (sep : Char) (l : List (List Char)) (h1 : l ≠ [])
    (h2 : ∀ x ∈ l, sep ∉ x) : splitChars sep (joinChars sep l) = l := by
  induction l with
  | nil => exact absurd rfl h1
  | cons x xs ih =>
    cases xs with
    | nil =>
      unfold joinChars
      exact splitChars_of_not_mem sep x (h2 x (List.mem_cons_self x []))
    | cons y ys =>
      unfold joinChars
      rw [splitChars_append_sep sep x _ (h2 x (List.mem_cons_self x (y :: ys)))]
      rw [ih (by simp) (fun z hz => h2 z (List.mem_cons_of_mem x hz))]

theorem splitWith_joinWith (sep : Char) (l : List String) (h1 : l ≠ [])
    (h2 : ∀ x ∈ l, sep ∉ x.toList) : splitWith sep (joinWith sep l) = l := by
  unfold splitWith joinWith
  have htl : (String.mk (joinChars sep (l.map String.toList))).toList =
      joinChars sep (l.map String.toList) := rfl
  rw [htl, splitChars_joinChars sep (l.map String.toList)
    (by simpa using h1)
    (by intro x hx
        rcases List.mem_map.mp hx with ⟨y, hy, rfl⟩
        exact h2 y hy)]
  rw [List.map_map]
  have : (String.mk ∘ String.toList) = id := by
    funext str
    rfl
  rw [this, List.map_id]

/-- Modelled from the spec: reading an Article Record back out of the result
archive.  The repository has no reader for the `{name}_results` table (only
`count` and `is_exist`), so the reconstruction follows the spec (§6 schema
comments and §8 *Article round-trip*): the keyword list is "reconstructed
from their joined storage form" by splitting the pipe-joined column, the
paragraph list by splitting the newline-joined column, and scalar columns
are returned as stored. -/
def rowToArticle (row : ArticleRow) : DetikArticle :=
  { title := row.title
    published_date := row.published_date
    description := row.description
    thumbnail_url := row.thumbnail_url
    author := row.author
    keywords := splitWith (Char.ofNat 124) row.keywords
    paragraphs := splitWith (Char.ofNat 10) row.paragraphs }

/-- Claim C8 (amended): inserting an Article Record whose keyword list is
non-empty with no keyword containing the pipe separator, and whose paragraph
list is non-empty with no paragraph containing a newline, under a URL not yet
archived, and reading it back returns field-for-field equal data.  (Without
these restrictions the round trip fails, e.g. for an empty keyword list —
see the counterexample.) -/
theorem article_round_trip (s : StorageState) (u : String) (a : DetikArticle)
    (hk1 : a.keywords ≠ [])
    (hk2 : ∀ k ∈ a.keywords, (Char.ofNat 124) ∉ k.toList)
    (hp1 : a.paragraphs ≠ [])
    (hp2 : ∀ p ∈ a.paragraphs, (Char.ofNat 10) ∉ p.toList)
    (hfresh : u.trim ∉ s.results.map Prod.fst) :
    resultsLookup (results_insert s u a) u = some (articleToRow a s.clock) ∧
    rowToArticle (articleToRow a s.clock) = a := by
  constructor
  · unfold resultsLookup results_insert
    rw [if_neg hfresh]
    have hnone : s.results.find? (fun p => p.1 == u.trim) = none := by
      rw [List.find?_eq_none]
      intro p hp
      simp only [beq_iff_eq]
      intro hpe
      exact hfresh (hpe ▸ List.mem_map_of_mem Prod.fst hp)
    rw [List.find?_append, hnone]
    simp
  · unfold rowToArticle articleToRow
    rw [splitWith_joinWith _ _ hk1 hk2, splitWith_joinWith _ _ hp1 hp2]

/-- A fully populated article with separator-free keywords and paragraphs. -/
def docFull : DetikArticle :=
  { title := some "t", published_date := some "2022-12-10T09:00:00+07:00",
    description := some "d", thumbnail_url := some "th", author := some "a",
    keywords := ["k1", "k2"], paragraphs := ["p1", "p2"] }

theorem article_round_trip_witness :
    (docFull.keywords ≠ [] ∧
      (∀ k ∈ docFull.keywords, (Char.ofNat 124) ∉ k.toList) ∧
      docFull.paragraphs ≠ [] ∧
      (∀ p ∈ docFull.paragraphs, (Char.ofNat 10) ∉ p.toList) ∧
      "u".trim ∉ emptyStore.results.map Prod.fst) ∧
    (resultsLookup (results_insert emptyStore "u" docFull) "u" =
        some (articleToRow docFull emptyStore.clock) ∧
      rowToArticle (articleToRow docFull emptyStore.clock) = docFull) :=
  ⟨⟨by decide, by decide, by decide, by decide, by simp [emptyStore]⟩,
    article_round_trip emptyStore "u" docFull (by decide) (by decide) (by decide)
      (by decide) (by simp [emptyStore])⟩

/-- An article with an empty keyword list and one paragraph. -/
def docNoKeywords : DetikArticle :=
  { title := some "t", published_date := none, description := none,
    thumbnail_url := none, author := none, keywords := [],
    paragraphs := ["p"] }

/-- Claim C8 (counterexample): for an Article Record with an empty keyword
list (an allowed value — `dtk:keywords` may be absent, yielding
`keywords = []`), inserting and reading back is not field-for-field equal:
the empty keyword list is stored as the empty string, which splits back into
a list holding one empty keyword. -/
theorem article_round_trip_counterexample :
    (resultsLookup (results_insert emptyStore "u" docNoKeywords) "u").map
        rowToArticle ≠
      some docNoKeywords := by
  have h : resultsLookup (results_insert emptyStore "u" docNoKeywords) "u" =
      some (articleToRow docNoKeywords 0) := by
    unfold resultsLookup results_insert
    rw [if_neg (by simp [emptyStore])]
    simp [emptyStore]
  rw [h]
  simp only [Option.map_some', ne_eq, Option.some.injEq]
  intro hEq
  have hkw := congrArg DetikArticle.keywords hEq
  simp [rowToArticle, articleToRow, joinWith, splitWith, joinChars, splitChars,
    docNoKeywords] at hkw

/-! Rate limiter (claim C9). -/

/-- Observable effects of one entry into the rate-limit section. -/
inductive ThrottleEvent where
  | sleep (d : Nat)
  | fetch
  deriving DecidableEq, Repr

/-- The rate-limit block of `handle` (`src/lib.rs`, lines 174-190), the
events one entry emits while holding `LAST_REQUEST_MUTEX`: the previous
instant is taken; if one exists and less than `REQUEST_DELAY` has elapsed
since it, the caller sleeps for the remaining delta; then the fetch is
issued.  Instants are nanosecond counts; `Instant::duration_since`
saturates, matching natural subtraction. -/
def throttleEvents (lastRequest : Option Nat) (now delay : Nat) :
    List ThrottleEvent :=
  match lastRequest with
  | none => [.fetch]
  | some t =>
    if now - t < delay then [.sleep (delay - (now - t)), .fetch]
    else [.fetch]

/-- The new value of the shared last-fetch instant after one entry
(`last_request_mutex.replace(now)` — the instant captured at entry, before
any sleep). -/
def throttleRecord (lastRequest : Option Nat) (now : Nat) : Option Nat :=
  some now

/-- Claim C9: for two consecutive entries into the rate-limit section, if the
second entry (at instant `now`) finds the instant `t1` recorded by the first
and less than the configured delay has elapsed, the second caller sleeps for
exactly `delay - elapsed` (hence at least that much) before its fetch event,
and the shared instant is updated for the next caller. -/
theorem rate_limit_suspends (last0 : Option Nat) (t1 now delay : Nat)
    (hmono : t1 ≤ now) (hlt : now - t1 < delay) :
    throttleEvents (throttleRecord last0 t1) now delay =
      [.sleep (delay - (now - t1)), .fetch] ∧
    delay - (now - t1) + (now - t1) = delay ∧
    throttleRecord (throttleRecord last0 t1) now = some now := by
  refine ⟨?_, ?_, rfl⟩
  · show throttleEvents (some t1) now delay = _
    simp only [throttleEvents]
    rw [if_pos hlt]
  · omega

theorem rate_limit_suspends_witness :
    ((0 : Nat) ≤ 3 ∧ (3 : Nat) - 0 < 10) ∧
    (throttleEvents (throttleRecord none 0) 3 10 =
        [.sleep (10 - (3 - 0)), .fetch] ∧
      10 - (3 - 0) + (3 - 0) = 10 ∧
      throttleRecord (throttleRecord none 0) 3 = some 3) :=
  ⟨⟨by decide, by decide⟩,
    rate_limit_suspends none 0 3 10 (by decide) (by decide)⟩

/-! Dispatcher / worker-pool concurrency (claim C5).

`run_scrapper` (`src/lib.rs`, lines 119-155) spawns a dispatcher task ticking
once a second, and a receive loop that drains the work channel and spawns one
`handle` task per URL.  The interleaving of these tasks is modelled by a
small-step transition relation.  Each transition is one storage operation (or
a span of consecutive operations of one task that touches neither the
Running table nor the channel, which is sound for reasoning about
`count(Running)` because any coarse trace is a fine trace in which those
operations happen to run back to back):

* the dispatcher tick is two steps, its `running_count` read and its
  `queued_get_n` read plus channel sends, because both are separate awaits
  (`src/lib.rs`, lines 131 and 133-139) and worker steps can interleave
  between them;
* a worker is four steps: `running_insert`, `queued_delete`, the whole
  result-processing branch (which never touches Running), and the final
  `running_delete`.

The channel is modelled unbounded: the code's capacity of 10 only blocks
senders, so every behaviour of the bounded channel is a behaviour of this
relation. -/

/-- `const MAX_IN_PROGRESS: u32 = 20` (`src/lib.rs`, line 41).  The claim's
test instance uses 2; the transition relation is parameterised over the
ceiling so both are covered. -/
def MAX_IN_PROGRESS : Nat := 20

/-- Control point of one spawned worker task. -/
inductive WorkerPc where
  | spawned
  | insertedRunning
  | deletedQueued
  | bodyDone
  deriving DecidableEq, Repr

/-- One live worker task: its URL, the crawl result its fetched page will
yield (fixed by the page, chosen at spawn time), and its control point. -/
structure Worker where
  url : String
  res : CrawlerResult
  pc : WorkerPc
  deriving DecidableEq, Repr

/-- Dispatcher control point: `idle` between ticks, `counted r` after having
read `running_count = r` but before its `queued_get_n` and sends. -/
inductive DispPhase where
  | idle
  | counted (r : Nat)
  deriving DecidableEq, Repr

/-- Global state of the engine: the store, the mpsc work channel content,
the live worker tasks, and the dispatcher phase. -/
structure EngineState where
  store : StorageState
  chan : List String
  workers : List Worker
  disp : DispPhase
  deriving DecidableEq, Repr

/-- One interleaving step of the engine, with in-flight ceiling `maxIP`. -/
inductive EngineStep (maxIP : Nat) : EngineState → EngineState → Prop where
  /-- Dispatcher reads `running_count` (`src/lib.rs`, line 131). -/
  | tickCount (s : EngineState) (h : s.disp = .idle) :
      EngineStep maxIP s { s with disp := .counted (running_count s.store) }
  /-- Dispatcher reads `queued_get_n (maxIP - r)` if `r < maxIP` and pushes
  the batch onto the channel (`src/lib.rs`, lines 132-139). -/
  | tickDispatch (s : EngineState) (r : Nat) (h : s.disp = .counted r) :
      EngineStep maxIP s
        { s with disp := .idle,
                 chan := s.chan ++
                   (if r < maxIP then queued_get_n s.store (maxIP - r) else []) }
  /-- Receive loop pops a URL that is already running or visited: it is
  deleted from Queued and dropped (`src/lib.rs`, lines 146-149). -/
  | recvSkip (s : EngineState) (u : String) (rest : List String)
      (h : s.chan = u :: rest)
      (hmem : u ∈ tableKeys s.store.running ∨ u ∈ tableKeys s.store.visited) :
      EngineStep maxIP s { s with chan := rest, store := queued_delete s.store u }
  /-- Receive loop pops a URL that is neither running nor visited and spawns
  a worker for it (`src/lib.rs`, lines 150-154). -/
  | recvSpawn (s : EngineState) (u : String) (rest : List String)
      (res : CrawlerResult) (h : s.chan = u :: rest)
      (hrun : u ∉ tableKeys s.store.running)
      (hvis : u ∉ tableKeys s.store.visited) :
      EngineStep maxIP s
        { s with chan := rest, workers := s.workers ++ [⟨u, res, .spawned⟩] }
  /-- A spawned worker executes `running_insert` (`src/lib.rs`, line 171). -/
  | workerInsert (s : EngineState) (i : Nat) (w : Worker)
      (h : s.workers.get? i = some w) (hpc : w.pc = .spawned) :
      EngineStep maxIP s
        { s with store := running_insert s.store w.url,
                 workers := s.workers.set i { w with pc := .insertedRunning } }
  /-- The worker executes `queued_delete` (`src/lib.rs`, line 172). -/
  | workerDeleteQueued (s : EngineState) (i : Nat) (w : Worker)
      (h : s.workers.get? i = some w) (hpc : w.pc = .insertedRunning) :
      EngineStep maxIP s
        { s with store := queued_delete s.store w.url,
                 workers := s.workers.set i { w with pc := .deletedQueued } }
  /-- The worker fetches, crawls, and runs the result branch
  (`src/lib.rs`, lines 174-238); none of these operations touches the
  Running table or the channel. -/
  | workerBody (s : EngineState) (i : Nat) (w : Worker)
      (h : s.workers.get? i = some w) (hpc : w.pc = .deletedQueued) :
      EngineStep maxIP s
        { s with store := handleBody w.url w.res s.store,
                 workers := s.workers.set i { w with pc := .bodyDone } }
  /-- The worker finishes with `running_delete` (`src/lib.rs`, line 240) and
  its task ends. -/
  | workerFinish (s : EngineState) (i : Nat) (w : Worker)
      (h : s.workers.get? i = some w) (hpc : w.pc = .bodyDone) :
      EngineStep maxIP s
        { s with store := running_delete s.store w.url,
                 workers := s.workers.eraseIdx i }

/-- Reachability under arbitrary interleaving. -/
inductive EngineReach (maxIP : Nat) : EngineState → EngineState → Prop where
  | refl (s : EngineState) : EngineReach maxIP s s
  | tail {a b c : EngineState} (hr : EngineReach maxIP a b)
      (hs : EngineStep maxIP b c) : EngineReach maxIP a c

/-- Startup state for the claim's test instance: five queued URLs, nothing
running, ceiling 2. -/
def c5s0 : EngineState :=
  { store := { queued := [("u1", 0), ("u2", 1), ("u3", 2), ("u4", 3), ("u5", 4)],
               running := [], visited := [], warned := [], results := [],
               clock := 5 },
    chan := [], workers := [], disp := .idle }

def c5s1 : EngineState :=
  { c5s0 with disp := .counted (running_count c5s0.store) }

def c5s2 : EngineState :=
  { c5s1 with disp := .idle,
              chan := c5s1.chan ++
                (if 0 < 2 then queued_get_n c5s1.store (2 - 0) else []) }

def c5s3 : EngineState :=
  { c5s2 with chan := ["u2"],
              workers := c5s2.workers ++ [⟨"u1", .Links [], .spawned⟩] }

def c5s4 : EngineState :=
  { c5s3 with chan := [],
              workers := c5s3.workers ++ [⟨"u2", .Links [], .spawned⟩] }

def c5s5 : EngineState :=
  { c5s4 with disp := .counted (running_count c5s4.store) }

def c5s6 : EngineState :=
  { c5s5 with store := running_insert c5s5.store "u1",
              workers := c5s5.workers.set 0 ⟨"u1", .Links [], .insertedRunning⟩ }

def c5s7 : EngineState :=
  { c5s6 with store := queued_delete c5s6.store "u1",
              workers := c5s6.workers.set 0 ⟨"u1", .Links [], .deletedQueued⟩ }

def c5s8 : EngineState :=
  { c5s7 with store := running_insert c5s7.store "u2",
              workers := c5s7.workers.set 1 ⟨"u2", .Links [], .insertedRunning⟩ }

def c5s9 : EngineState :=
  { c5s8 with store := queued_delete c5s8.store "u2",
              workers := c5s8.workers.set 1 ⟨"u2", .Links [], .deletedQueued⟩ }

def c5s10 : EngineState :=
  { c5s9 with disp := .idle,
              chan := c5s9.chan ++
                (if 0 < 2 then queued_get_n c5s9.store (2 - 0) else []) }

def c5s11 : EngineState :=
  { c5s10 with chan := ["u4"],
               workers := c5s10.workers ++ [⟨"u3", .Links [], .spawned⟩] }

def c5s12 : EngineState :=
  { c5s11 with store := running_insert c5s11.store "u3",
               workers := c5s11.workers.set 2 ⟨"u3", .Links [], .insertedRunning⟩ }

/-- Claim C5 (counterexample): with `MAX_IN_PROGRESS = 2` and 5 queued URLs
there is an interleaving after which 3 URLs are simultaneously in Running.
The schedule: the dispatcher's second capacity read (`running_count = 0`)
happens before the first batch's workers run `running_insert`, and its
`queued_get_n` happens after those workers run `queued_delete`, so the
second batch dispatches two fresh URLs while the first two are already
running. -/
theorem dispatcher_overshoot :
    EngineReach 2 c5s0 c5s12 ∧ 2 < running_count c5s12.store := by
  constructor
  · have h1 : EngineStep 2 c5s0 c5s1 := EngineStep.tickCount c5s0 rfl
    have h2 : EngineStep 2 c5s1 c5s2 := EngineStep.tickDispatch c5s1 0 rfl
    have h3 : EngineStep 2 c5s2 c5s3 :=
      EngineStep.recvSpawn c5s2 "u1" ["u2"] (.Links []) rfl (by decide) (by decide)
    have h4 : EngineStep 2 c5s3 c5s4 :=
      EngineStep.recvSpawn c5s3 "u2" [] (.Links []) rfl (by decide) (by decide)
    have h5 : EngineStep 2 c5s4 c5s5 := EngineStep.tickCount c5s4 rfl
    have h6 : EngineStep 2 c5s5 c5s6 :=
      EngineStep.workerInsert c5s5 0 ⟨"u1", .Links [], .spawned⟩ rfl rfl
    have h7 : EngineStep 2 c5s6 c5s7 :=
      EngineStep.workerDeleteQueued c5s6 0 ⟨"u1", .Links [], .insertedRunning⟩ rfl rfl
    have h8 : EngineStep 2 c5s7 c5s8 :=
      EngineStep.workerInsert c5s7 1 ⟨"u2", .Links [], .spawned⟩ rfl rfl
    have h9 : EngineStep 2 c5s8 c5s9 :=
      EngineStep.workerDeleteQueued c5s8 1 ⟨"u2", .Links [], .insertedRunning⟩ rfl rfl
    have h10 : EngineStep 2 c5s9 c5s10 := EngineStep.tickDispatch c5s9 0 rfl
    have h11 : EngineStep 2 c5s10 c5s11 :=
      EngineStep.recvSpawn c5s10 "u3" ["u4"] (.Links []) rfl (by decide) (by decide)
    have h12 : EngineStep 2 c5s11 c5s12 :=
      EngineStep.workerInsert c5s11 2 ⟨"u3", .Links [], .spawned⟩ rfl rfl
    exact EngineReach.tail (EngineReach.tail (EngineReach.tail (EngineReach.tail
      (EngineReach.tail (EngineReach.tail (EngineReach.tail (EngineReach.tail
        (EngineReach.tail (EngineReach.tail (EngineReach.tail (EngineReach.tail
          (EngineReach.refl c5s0) h1) h2) h3) h4) h5) h6) h7) h8) h9) h10) h11)
      h12
  · decide

/-! List helper lemmas for the worker-pool invariant. -/

theorem list_set_get_self {A : Type} :
    forall (l : List A) (i : Nat) (a : A), l.get? i = some a -> l.set i a = l := by
  intro l
  induction l with
  | nil => intro i a h; simp at h
  | cons x xs ih =>
    intro i a h
    cases i with
    | zero =>
      simp only [List.get?_cons_zero, Option.some.injEq] at h
      simp [h]
    | succ j =>
      simp only [List.get?_cons_succ] at h
      simp [List.set_cons_succ, ih j a h]

theorem list_mem_of_mem_set {A : Type} :
    forall (l : List A) (i : Nat) (a b : A), a ∈ l.set i b -> a ∈ l ∨ a = b := by
  intro l
  induction l with
  | nil => intro i a b h; simp at h
  | cons x xs ih =>
    intro i a b h
    cases i with
    | zero =>
      rcases List.mem_cons.mp h with rfl | hx
      · exact Or.inr rfl
      · exact Or.inl (List.mem_cons_of_mem x hx)
    | succ j =>
      rcases List.mem_cons.mp h with rfl | hx
      · exact Or.inl (List.mem_cons_self a xs)
      · rcases ih j a b hx with h1 | h2
        · exact Or.inl (List.mem_cons_of_mem x h1)
        · exact Or.inr h2

theorem list_mem_set_of_ne {A : Type} :
    forall (l : List A) (i : Nat) (a w b : A),
      a ∈ l -> l.get? i = some w -> a ≠ w -> a ∈ l.set i b := by
  intro l
  induction l with
  | nil => intro i a w b h _ _; simp at h
  | cons x xs ih =>
    intro i a w b hmem hget hne
    cases i with
    | zero =>
      simp only [List.get?_cons_zero, Option.some.injEq] at hget
      rcases List.mem_cons.mp hmem with rfl | hx
      · exact absurd (hget ▸ rfl) hne
      · exact List.mem_cons_of_mem b hx
    | succ j =>
      simp only [List.get?_cons_succ] at hget
      rcases List.mem_cons.mp hmem with rfl | hx
      · exact List.mem_cons_self a _
      · exact List.mem_cons_of_mem x (ih j a w b hx hget hne)

theorem list_mem_eraseIdx_of_ne {A : Type} :
    forall (l : List A) (i : Nat) (a : A),
      a ∈ l -> l.get? i ≠ some a -> a ∈ l.eraseIdx i := by
  intro l
  induction l with
  | nil => intro i a h _; simp at h
  | cons x xs ih =>
    intro i a hmem hget
    cases i with
    | zero =>
      rcases List.mem_cons.mp hmem with rfl | hx
      · exact absurd rfl hget
      · simpa [List.eraseIdx] using hx
    | succ j =>
      simp only [List.get?_cons_succ] at hget
      rcases List.mem_cons.mp hmem with rfl | hx
      · simp [List.eraseIdx]
      · simpa [List.eraseIdx] using Or.inr (ih j a hx hget)

/-! Frame lemmas: the result-processing branch never touches Running, and it
preserves distinctness of the queued keys. -/

theorem handleBody_running (u : String) (res : CrawlerResult) (st : StorageState) :
    (handleBody u res st).running = st.running := by
  cases res with
  | Links links => simp [handleBody, enqueue_links_running, visited_insert]
  | DocumentAndLinks doc links =>
    cases hE : doc.paragraphs.isEmpty with
    | true => simp [handleBody, hE, warned_insert]
    | false =>
      simp [handleBody, hE, enqueue_links_running, visited_insert,
        results_insert_running]

theorem handleBody_queued_nodup (u : String) (res : CrawlerResult)
    (st : StorageState) (h : (tableKeys st.queued).Nodup) :
    (tableKeys (handleBody u res st).queued).Nodup := by
  cases res with
  | Links links =>
    refine enqueue_links_queued_nodup _ links ?_
    simpa [visited_insert] using h
  | DocumentAndLinks doc links =>
    cases hE : doc.paragraphs.isEmpty with
    | true => simpa [handleBody, hE, warned_insert] using h
    | false =>
      simp only [handleBody, hE, Bool.false_eq_true, if_false]
      refine enqueue_links_queued_nodup _ links ?_
      simpa [visited_insert, results_insert_queued] using h


/-- Quiescence: the work channel is drained and every spawned worker task
has finished. -/
def engineQuiescent (s : EngineState) : Prop := s.chan = [] ∧ s.workers = []

/-- Reachability restricted to schedules in which the dispatcher starts a
tick (its `running_count` read, the step that moves `disp` out of `idle`)
only from quiescent states: each dispatch cycle is fully absorbed before the
next capacity read. -/
inductive CycleReach (maxIP : Nat) : EngineState → EngineState → Prop where
  | refl (s : EngineState) : CycleReach maxIP s s
  | tail {a b c : EngineState} (hr : CycleReach maxIP a b)
      (hs : EngineStep maxIP b c)
      (hq : b.disp = .idle → c.disp ≠ .idle → engineQuiescent b) :
      CycleReach maxIP a c

/-- Inductive invariant for quiescent-cycle schedules: distinct keys in the
queued and running tables, a duplicate-free channel disjoint from the live
workers, at most `maxIP` URLs in flight (channel plus workers), every
running URL owned by a live worker past its insert, and a mid-tick
dispatcher only in a drained, idle-workers, empty-running state. -/
def EngineInv (maxIP : Nat) (s : EngineState) : Prop :=
  (tableKeys s.store.queued).Nodup ∧
  (tableKeys s.store.running).Nodup ∧
  s.chan.Nodup ∧
  (s.workers.map Worker.url).Nodup ∧
  (∀ u ∈ s.chan, ∀ w ∈ s.workers, w.url ≠ u) ∧
  s.chan.length + s.workers.length ≤ maxIP ∧
  (∀ u ∈ tableKeys s.store.running,
    ∃ w ∈ s.workers, w.url = u ∧ w.pc ≠ WorkerPc.spawned) ∧
  (∀ r, s.disp = DispPhase.counted r →
    s.chan = [] ∧ s.workers = [] ∧ s.store.running = [] ∧ r = 0)

theorem engineInv_step {maxIP : Nat} {b c : EngineState}
    (hinv : EngineInv maxIP b) (hs : EngineStep maxIP b c)
    (hq : b.disp = .idle → c.disp ≠ .idle → engineQuiescent b) :
    EngineInv maxIP c := by
  obtain ⟨hQ, hR, hC, hW, hD, hL, hRW, hCT⟩ := hinv
  cases hs with
  | tickCount h =>
    obtain ⟨hchan, hwork⟩ := hq h (by simp)
    have hrunnil : b.store.running = [] := by
      have hkeys : tableKeys b.store.running = [] := by
        by_contra hne
        obtain ⟨u, hu⟩ := List.exists_mem_of_ne_nil _ hne
        obtain ⟨w, hw, -, -⟩ := hRW u hu
        rw [hwork] at hw
        exact absurd hw (List.not_mem_nil w)
      exact List.map_eq_nil_iff.mp hkeys
    refine ⟨hQ, hR, hC, hW, hD, hL, hRW, ?_⟩
    intro r hd
    have hr : running_count b.store = r := by injection hd
    refine ⟨hchan, hwork, hrunnil, ?_⟩
    rw [← hr]
    simp [running_count, hrunnil]
  | tickDispatch r h =>
    obtain ⟨hchan, hwork, hrun, hr0⟩ := hCT r h
    subst hr0
    refine ⟨hQ, hR, ?_, ?_, ?_, ?_, ?_, ?_⟩
    · by_cases hlt : 0 < maxIP
      · simp only [hchan, List.nil_append, if_pos hlt]
        exact List.Nodup.sublist
          (List.Sublist.map _ (List.take_sublist _ _)) hQ
      · simp [hchan, hlt]
    · rw [hwork]; simp
    · intro u hu w hw
      rw [hwork] at hw
      exact absurd hw (List.not_mem_nil w)
    · rw [hwork, hchan]
      by_cases hlt : 0 < maxIP
      · simp only [List.nil_append, if_pos hlt, List.length_nil, Nat.add_zero]
        calc (queued_get_n b.store (maxIP - 0)).length
            ≤ maxIP - 0 := by
              unfold queued_get_n tableKeys
              rw [List.length_map]
              exact List.length_take_le _ _
          _ ≤ maxIP := Nat.sub_le _ _
      · simp [hlt]
    · intro u hu
      rw [hrun] at hu
      simp [tableKeys] at hu
    · intro r' hd
      exact absurd hd (by simp)
  | recvSkip u rest h hmem =>
    have hCne : ∀ r', b.disp ≠ DispPhase.counted r' := by
      intro r' hd
      obtain ⟨hchan, -, -, -⟩ := hCT r' hd
      rw [h] at hchan
      exact absurd hchan (by simp)
    refine ⟨tableKeys_urlDelete_nodup _ _ hQ, hR, ?_, hW, ?_, ?_, hRW, ?_⟩
    · rw [h] at hC
      exact (List.nodup_cons.mp hC).2
    · intro v hv w hw
      exact hD v (by rw [h]; exact List.mem_cons_of_mem u hv) w hw
    · have hL2 := hL
      rw [h] at hL2
      simp only [List.length_cons] at hL2
      show rest.length + b.workers.length ≤ maxIP
      omega
    · intro r' hd
      exact absurd hd (hCne r')
  | recvSpawn u rest res h hrun hvis =>
    have hCne : ∀ r', b.disp ≠ DispPhase.counted r' := by
      intro r' hd
      obtain ⟨hchan, -, -, -⟩ := hCT r' hd
      rw [h] at hchan
      exact absurd hchan (by simp)
    have humem : u ∈ b.chan := by
      rw [h]; exact List.mem_cons_self u rest
    have hunotw : u ∉ b.workers.map Worker.url := by
      intro hmem2
      obtain ⟨w, hw, hurl⟩ := List.mem_map.mp hmem2
      exact hD u humem w hw hurl
    refine ⟨hQ, hR, ?_, ?_, ?_, ?_, ?_, ?_⟩
    · rw [h] at hC
      exact (List.nodup_cons.mp hC).2
    · rw [List.map_append]
      refine List.Nodup.append hW (by simp) ?_
      intro a ha hb
      simp only [List.map_cons, List.map_nil, List.mem_singleton] at hb
      subst hb
      exact hunotw ha
    · intro v hv w hw
      rcases List.mem_append.mp hw with hw1 | hw2
      · exact hD v (by rw [h]; exact List.mem_cons_of_mem u hv) w hw1
      · simp only [List.mem_singleton] at hw2
        subst hw2
        rw [h] at hC
        intro he
        have he2 : u = v := he
        cases he2
        exact (List.nodup_cons.mp hC).1 hv
    · have hL2 := hL
      rw [h] at hL2
      simp only [List.length_cons] at hL2
      show rest.length + (b.workers ++ [(⟨u, res, WorkerPc.spawned⟩ : Worker)]).length ≤ maxIP
      simp only [List.length_append, List.length_singleton]
      omega
    · intro u' hu'
      obtain ⟨w, hw, hurl, hpc⟩ := hRW u' hu'
      exact ⟨w, List.mem_append_left _ hw, hurl, hpc⟩
    · intro r' hd
      exact absurd hd (hCne r')
  | workerInsert i w h hpc =>
    have hCne : ∀ r', b.disp ≠ DispPhase.counted r' := by
      intro r' hd
      obtain ⟨-, hwork, -, -⟩ := hCT r' hd
      rw [hwork] at h
      exact Option.noConfusion h
    have hwmem : w ∈ b.workers := List.get?_mem h
    have hmapget : (b.workers.map Worker.url).get? i = some w.url := by
      rw [List.get?_map, h]; rfl
    have hmapset :
        (b.workers.set i { w with pc := .insertedRunning }).map Worker.url =
          b.workers.map Worker.url := by
      rw [List.map_set]
      exact list_set_get_self _ i _ hmapget
    have hilt : i < b.workers.length := by
      rcases List.get?_eq_some.mp h with ⟨hlt, -⟩
      exact hlt
    refine ⟨hQ, tableKeys_urlInsert_nodup _ _ _ hR, hC, ?_, ?_, ?_, ?_, ?_⟩
    · rw [hmapset]; exact hW
    · intro v hv w2 hw2
      rcases list_mem_of_mem_set _ _ _ _ hw2 with hmem2 | heq
      · exact hD v hv w2 hmem2
      · rw [heq]
        exact hD v hv w hwmem
    · rw [List.length_set]; exact hL
    · intro u' hu'
      rcases (mem_tableKeys_urlInsert_iff _ _ _ _).mp hu' with hold | heq
      · obtain ⟨w2, hw2, hurl, hpc2⟩ := hRW u' hold
        by_cases hew : w2 = w
        · subst hew
          exact absurd hpc hpc2
        · exact ⟨w2, list_mem_set_of_ne _ i w2 w _ hw2 h hew, hurl, hpc2⟩
      · exact ⟨{ w with pc := .insertedRunning }, List.mem_set _ _ hilt _,
          heq.symm, by simp⟩
    · intro r' hd
      exact absurd hd (hCne r')
  | workerDeleteQueued i w h hpc =>
    have hCne : ∀ r', b.disp ≠ DispPhase.counted r' := by
      intro r' hd
      obtain ⟨-, hwork, -, -⟩ := hCT r' hd
      rw [hwork] at h
      exact Option.noConfusion h
    have hwmem : w ∈ b.workers := List.get?_mem h
    have hmapget : (b.workers.map Worker.url).get? i = some w.url := by
      rw [List.get?_map, h]; rfl
    have hmapset :
        (b.workers.set i { w with pc := .deletedQueued }).map Worker.url =
          b.workers.map Worker.url := by
      rw [List.map_set]
      exact list_set_get_self _ i _ hmapget
    have hilt : i < b.workers.length := by
      rcases List.get?_eq_some.mp h with ⟨hlt, -⟩
      exact hlt
    refine ⟨tableKeys_urlDelete_nodup _ _ hQ, hR, hC, ?_, ?_, ?_, ?_, ?_⟩
    · rw [hmapset]; exact hW
    · intro v hv w2 hw2
      rcases list_mem_of_mem_set _ _ _ _ hw2 with hmem2 | heq
      · exact hD v hv w2 hmem2
      · rw [heq]
        exact hD v hv w hwmem
    · rw [List.length_set]; exact hL
    · intro u' hu'
      obtain ⟨w2, hw2, hurl, hpc2⟩ := hRW u' hu'
      by_cases hew : w2 = w
      · subst hew
        exact ⟨{ w2 with pc := .deletedQueued }, List.mem_set _ _ hilt _, hurl,
          by simp⟩
      · exact ⟨w2, list_mem_set_of_ne _ i w2 w _ hw2 h hew, hurl, hpc2⟩
    · intro r' hd
      exact absurd hd (hCne r')
  | workerBody i w h hpc =>
    have hCne : ∀ r', b.disp ≠ DispPhase.counted r' := by
      intro r' hd
      obtain ⟨-, hwork, -, -⟩ := hCT r' hd
      rw [hwork] at h
      exact Option.noConfusion h
    have hwmem : w ∈ b.workers := List.get?_mem h
    have hmapget : (b.workers.map Worker.url).get? i = some w.url := by
      rw [List.get?_map, h]; rfl
    have hmapset :
        (b.workers.set i { w with pc := .bodyDone }).map Worker.url =
          b.workers.map Worker.url := by
      rw [List.map_set]
      exact list_set_get_self _ i _ hmapget
    have hilt : i < b.workers.length := by
      rcases List.get?_eq_some.mp h with ⟨hlt, -⟩
      exact hlt
    refine ⟨handleBody_queued_nodup _ _ _ hQ, ?_, hC, ?_, ?_, ?_, ?_, ?_⟩
    · rw [show (handleBody w.url w.res b.store).running = b.store.running from
        handleBody_running _ _ _]
      exact hR
    · rw [hmapset]; exact hW
    · intro v hv w2 hw2
      rcases list_mem_of_mem_set _ _ _ _ hw2 with hmem2 | heq
      · exact hD v hv w2 hmem2
      · rw [heq]
        exact hD v hv w hwmem
    · rw [List.length_set]; exact hL
    · intro u' hu'
      rw [show (handleBody w.url w.res b.store).running = b.store.running from
        handleBody_running _ _ _] at hu'
      obtain ⟨w2, hw2, hurl, hpc2⟩ := hRW u' hu'
      by_cases hew : w2 = w
      · subst hew
        exact ⟨{ w2 with pc := .bodyDone }, List.mem_set _ _ hilt _, hurl,
          by simp⟩
      · exact ⟨w2, list_mem_set_of_ne _ i w2 w _ hw2 h hew, hurl, hpc2⟩
    · intro r' hd
      exact absurd hd (hCne r')
  | workerFinish i w h hpc =>
    have hCne : ∀ r', b.disp ≠ DispPhase.counted r' := by
      intro r' hd
      obtain ⟨-, hwork, -, -⟩ := hCT r' hd
      rw [hwork] at h
      exact Option.noConfusion h
    refine ⟨hQ, tableKeys_urlDelete_nodup _ _ hR, hC, ?_, ?_, ?_, ?_, ?_⟩
    · exact List.Nodup.sublist
        (List.Sublist.map _ (List.eraseIdx_sublist _ _)) hW
    · intro v hv w2 hw2
      exact hD v hv w2 ((List.eraseIdx_sublist _ _).subset hw2)
    · have hle := (List.eraseIdx_sublist b.workers i).length_le
      show b.chan.length + (b.workers.eraseIdx i).length ≤ maxIP
      omega
    · intro u' hu'
      obtain ⟨hold, hne⟩ := (mem_tableKeys_urlDelete_iff _ _ _).mp hu'
      obtain ⟨w2, hw2, hurl, hpc2⟩ := hRW u' hold
      have hwne : w2 ≠ w := by
        intro he
        rw [he] at hurl
        exact hne hurl.symm
      have hget : b.workers.get? i ≠ some w2 := by
        rw [h]
        intro hcon
        exact hwne (Option.some.inj hcon).symm
      exact ⟨w2, list_mem_eraseIdx_of_ne _ i w2 hw2 hget, hurl, hpc2⟩
    · intro r' hd
      exact absurd hd (hCne r')

theorem cycleReach_inv {maxIP : Nat} {a b : EngineState}
    (ha : EngineInv maxIP a) (hr : CycleReach maxIP a b) :
    EngineInv maxIP b := by
  induction hr with
  | refl => exact ha
  | tail hr2 hs hq ih => exact engineInv_step ih hs hq

/-- Claim C5 (amended): each dispatcher tick pushes at most
`maxIP - count(Running)` URLs, and along every schedule in which a tick
starts only after the previous cycle has fully drained (`CycleReach`),
`count(Running)` never exceeds `MAX_IN_PROGRESS`; stated for any ceiling
`maxIP`, so both the code constant 20 and the claim's instance 2 are
covered.  Under unrestricted interleaving the bound can be exceeded
(`dispatcher_overshoot` reaches 3 running with ceiling 2 and 5 queued
URLs), because a tick's capacity read can be stale by the time its queue
read happens. -/
theorem backpressure_bound (maxIP : Nat) (a b : EngineState)
    (h1 : a.chan = []) (h2 : a.workers = []) (h3 : a.store.running = [])
    (h4 : (tableKeys a.store.queued).Nodup) (h5 : a.disp = DispPhase.idle)
    (hr : CycleReach maxIP a b) :
    running_count b.store ≤ maxIP := by
  have hinv : EngineInv maxIP a := by
    refine ⟨h4, ?_, ?_, ?_, ?_, ?_, ?_, ?_⟩
    · rw [h3]; simp [tableKeys]
    · rw [h1]; simp
    · rw [h2]; simp
    · intro u hu
      rw [h1] at hu
      exact absurd hu (List.not_mem_nil u)
    · rw [h1, h2]; simp
    · intro u hu
      rw [h3] at hu
      simp [tableKeys] at hu
    · intro r' hd
      rw [h5] at hd
      exact absurd hd.symm (by simp)
  have hb := cycleReach_inv hinv hr
  obtain ⟨-, hR, -, -, -, hL, hRW, -⟩ := hb
  have hsub : tableKeys b.store.running ⊆ b.workers.map Worker.url := by
    intro u hu
    obtain ⟨w, hw, hurl, -⟩ := hRW u hu
    exact hurl ▸ List.mem_map_of_mem Worker.url hw
  have hlen : (tableKeys b.store.running).length ≤
      (b.workers.map Worker.url).length :=
    (List.Nodup.subperm hR hsub).length_le
  have he1 : (tableKeys b.store.running).length = running_count b.store := by
    unfold tableKeys running_count
    exact List.length_map _ _
  have he2 : (b.workers.map Worker.url).length = b.workers.length :=
    List.length_map _ _
  omega

theorem backpressure_bound_witness :
    (c5s0.chan = [] ∧ c5s0.workers = [] ∧ c5s0.store.running = [] ∧
      (tableKeys c5s0.store.queued).Nodup ∧ c5s0.disp = DispPhase.idle) ∧
    running_count c5s0.store ≤ 2 :=
  ⟨⟨rfl, rfl, rfl, by decide, rfl⟩,
    backpressure_bound 2 c5s0 c5s0 rfl rfl rfl (by decide) rfl
      (CycleReach.refl c5s0)⟩


end Crawler
